import Mathlib

/-!
Verification development for the SCN supply-chain-network generator
(`src/app.py`).  The core pipeline (`create_graph`, `create_multiple_graphs`)
is shallowly embedded here.

Modelling conventions:

* Python's global `random` module is modelled by an `Oracle`: an abstract
  stream of draws indexed by a call counter that is threaded through the
  computation in the source's call order.  `rnd.random()` is `Oracle.random`
  (a rational in `[0,1)` under `Oracle.ValidRandom`); `rnd.sample(pop, k)` is
  modelled as the first `k` elements of `Oracle.sample n pop`, a shuffle of
  `pop` (under `Oracle.ValidSample` its elements come from `pop`);
  `rnd.randint(a,b)` is `Oracle.randint`.  `rnd.seed(s)` corresponds to
  selecting the oracle of seed `s` from a family `Fam : Nat -> Oracle`.

* Positions.  The source stores `position[node] = [rnd.random()*sqrt(S) for _
  in range(2)]` with `S = np.sum(firms_per_label)`, and compares the Euclidean
  distance `sqrt(sum of squared differences)` with `radius`.  To stay in `Rat`
  (exact, computable) we store the unit draws `u` (so the real coordinate is
  `u * sqrt S`) and compare squared quantities: for nonnegative `d`,
  `sqrt (S * d) < radius  <->  0 < radius /\ S * d < radius ^ 2`,
  which is what `inRange` decides.  This is an exact reformulation of the
  source's test, not an approximation (floating point roundoff is abstracted
  to exact rational arithmetic).

* Node bookkeeping.  Firms get ids `0 .. F-1` (in label order) and the `j`-th
  accepted product gets id `F + j`, exactly as the source's `node` counter
  assigns them.  NetworkX's `DiGraph` iterates nodes in insertion order and
  `remove_node` preserves the order of the remaining nodes, so pruning is a
  `filter` on the insertion-ordered node list, relabeling is positional
  indexing into the pruned list, and predecessor lists iterate in
  edge-insertion order.

* The pdf rendering, the `graph_num` argument (only used for the pdf file
  name) and `nx.node_link_data` serialization are I/O plumbing outside the
  core and are not modelled; `create_graph` returns the output graph's node
  and edge lists directly.
-/

namespace SCN

/-- Abstract stream of pseudo-random draws (Python's `random` module),
indexed by a call counter. -/
structure Oracle where
  random : ℕ → ℚ
  sample : ℕ → List ℕ → List ℕ
  randint : ℕ → ℕ → ℕ → ℕ

/-- `rnd.random()` draws lie in `[0, 1)`. -/
def Oracle.ValidRandom (O : Oracle) : Prop :=
  ∀ n, 0 ≤ O.random n ∧ O.random n < 1

/-- `rnd.sample(pop, k)` only returns elements of `pop`. -/
def Oracle.ValidSample (O : Oracle) : Prop :=
  ∀ n pop x, x ∈ O.sample n pop → x ∈ pop

/-- `rnd.randint(a, b)` returns an integer in `[a, b]` (both ends included). -/
def Oracle.ValidRandint (O : Oracle) : Prop :=
  ∀ n a b, a ≤ b → a ≤ O.randint n a b ∧ O.randint n a b ≤ b

/-- Squared Euclidean distance between two 2D points (the source's
`measure_node_distance` computes its square root; we keep the square to stay
in `Rat`). -/
def measure_node_distance_sq (firm_pos path_pos : ℚ × ℚ) : ℚ :=
  (firm_pos.1 - path_pos.1) ^ 2 + (firm_pos.2 - path_pos.2) ^ 2

/-- The squared scale factor of all positions: the source multiplies every
unit draw by `np.sqrt(np.sum(firms_per_label))`. -/
def posScaleSq (firms_per_label : List ℕ) : ℕ := firms_per_label.sum

/-- First node id of the given label's block of firm ids (firms are created
label by label, so label `l`'s firms start right after all earlier labels'
firms). -/
def blockStart (firms_per_label : List ℕ) (label : ℕ) : ℕ :=
  (firms_per_label.take label).sum

/-- The source's `label_nodes[label]`: the list of firm ids carrying `label`,
in creation order. -/
def label_nodes (firms_per_label : List ℕ) (label : ℕ) : List ℕ :=
  List.range' (blockStart firms_per_label label) (firms_per_label.getD label 0)

/-- The label attribute `G.nodes[n]["label"]` of firm id `n`: the label whose
contiguous block of ids contains `n`. -/
def nodeLabel : List ℕ → ℕ → ℕ
  | [], _ => 0
  | c :: rest, n => if n < c then 0 else nodeLabel rest (n - c) + 1

/-- Unit position of firm `n` (two `rnd.random()` draws; firm `n`'s draws are
the calls numbered `2n` and `2n+1`, since firms draw first, in id order). -/
def firmPos (O : Oracle) (n : ℕ) : ℚ × ℚ :=
  (O.random (2 * n), O.random (2 * n + 1))

/-- The source's distance test `value < radius` on actual coordinates
`u * sqrt S`, decided on squared quantities: for squared unit distance `d`,
`sqrt (S * d) < radius` iff `0 < radius` and `S * d < radius ^ 2`. -/
def inRange (S : ℕ) (radius d : ℚ) : Bool :=
  decide (0 < radius) && decide ((S : ℚ) * d < radius ^ 2)

/-- The source's `nodes_in_range` for one label of one candidate product. -/
def nodes_in_range (O : Oracle) (firms_per_label : List ℕ) (radius : ℚ)
    (product_pos : ℚ × ℚ) (label : ℕ) : List ℕ :=
  (label_nodes firms_per_label label).filter
    (fun n => inRange (posScaleSq firms_per_label) radius
      (measure_node_distance_sq (firmPos O n) product_pos))

/-- State of the per-label selection loop of one product attempt:
the partial `new_product` list and the oracle call counter. -/
structure SelState where
  new_product : List ℕ
  ctr : ℕ
deriving DecidableEq

/-- One iteration of `for label in range(labels)` in the product loop:
if some firms of this label are in range, sample at most
`connect_vector[label]` of them (modelled as a prefix of a shuffle) and append
them to `new_product`. -/
def selectStep (O : Oracle) (firms_per_label connect_vector : List ℕ)
    (radius : ℚ) (product_pos : ℚ × ℚ) (st : SelState) (label : ℕ) : SelState :=
  if 0 < (nodes_in_range O firms_per_label radius product_pos label).length then
    ⟨st.new_product ++
        (O.sample st.ctr (nodes_in_range O firms_per_label radius product_pos label)).take
          (min (nodes_in_range O firms_per_label radius product_pos label).length
            (connect_vector.getD label 0)),
      st.ctr + 1⟩
  else st

/-- The whole per-label selection for one candidate product position. -/
def attemptSelect (O : Oracle) (firms_per_label connect_vector : List ℕ)
    (radius : ℚ) (product_pos : ℚ × ℚ) (c0 : ℕ) : SelState :=
  (List.range firms_per_label.length).foldl
    (selectStep O firms_per_label connect_vector radius product_pos) ⟨[], c0⟩

/-- State of the product-attempt loop: accepted `product_list` and call
counter. -/
structure PState where
  product_list : List (List ℕ)
  ctr : ℕ
deriving DecidableEq

/-- The candidate `new_product` assembled by one attempt: the product position
takes two draws, then the per-label selection runs. -/
def candidate (O : Oracle) (firms_per_label connect_vector : List ℕ)
    (radius : ℚ) (st : PState) : List ℕ :=
  (attemptSelect O firms_per_label connect_vector radius
    (O.random st.ctr, O.random (st.ctr + 1)) (st.ctr + 2)).new_product

/-- Call counter after one attempt. -/
def candidateCtr (O : Oracle) (firms_per_label connect_vector : List ℕ)
    (radius : ℚ) (st : PState) : ℕ :=
  (attemptSelect O firms_per_label connect_vector radius
    (O.random st.ctr, O.random (st.ctr + 1)) (st.ctr + 2)).ctr

/-- One iteration of `for _ in range(number_products)`: the candidate is
appended iff `(not new_product in product_list) and len(new_product) > 1`
(list membership, i.e. sequence equality). -/
def productStep (O : Oracle) (firms_per_label connect_vector : List ℕ)
    (radius : ℚ) (st : PState) : PState :=
  if candidate O firms_per_label connect_vector radius st ∉ st.product_list ∧
      1 < (candidate O firms_per_label connect_vector radius st).length then
    ⟨st.product_list ++ [candidate O firms_per_label connect_vector radius st],
      candidateCtr O firms_per_label connect_vector radius st⟩
  else
    ⟨st.product_list, candidateCtr O firms_per_label connect_vector radius st⟩

/-- The accepted products of one graph, in acceptance order.  The call
counter starts at `2 * F` because the `F` firms each consumed two
`rnd.random()` calls first. -/
def product_list (O : Oracle) (firms_per_label : List ℕ) (number_products : ℕ)
    (connect_vector : List ℕ) (radius : ℚ) : List (List ℕ) :=
  ((List.range number_products).foldl
    (fun st _ => productStep O firms_per_label connect_vector radius st)
    ⟨[], 2 * firms_per_label.sum⟩).product_list

/-- Nodes of the bipartite generation graph in insertion order: firm ids
`0 .. F-1` then product ids `F .. F+p-1`. -/
def bipNodes (firms_per_label : List ℕ) (ps : List (List ℕ)) : List ℕ :=
  List.range (firms_per_label.sum + ps.length)

/-- Edges of the bipartite generation graph in insertion order: for the `j`-th
accepted product, one edge from each chosen firm (in `new_product` order) to
product node `F + j`. -/
def bipEdges (firms_per_label : List ℕ) (ps : List (List ℕ)) : List (ℕ × ℕ) :=
  (List.range ps.length).flatMap
    (fun j => (ps.getD j []).map (fun f => (f, firms_per_label.sum + j)))

/-- Whether node `n` has at least one incident edge (the source prunes nodes
with no successors and no predecessors). -/
def hasEdge (es : List (ℕ × ℕ)) (n : ℕ) : Bool :=
  es.any (fun e => e.1 == n || e.2 == n)

/-- Surviving nodes after pruning, in insertion order (NetworkX preserves the
order of the remaining nodes). -/
def prunedNodes (firms_per_label : List ℕ) (ps : List (List ℕ)) : List ℕ :=
  (bipNodes firms_per_label ps).filter (hasEdge (bipEdges firms_per_label ps))

/-- The firm part of the pruned node list: the firms that survive pruning,
in insertion order (derived notion used to reason about relabeling). -/
def survFirms (firms_per_label : List ℕ) (ps : List (List ℕ)) : List ℕ :=
  (List.range firms_per_label.sum).filter (hasEdge (bipEdges firms_per_label ps))

/-- The relabeling `mapping`: a surviving node's new id is its position in the
pruned insertion order. -/
def relabelMap (firms_per_label : List ℕ) (ps : List (List ℕ)) (n : ℕ) : ℕ :=
  (prunedNodes firms_per_label ps).indexOf n

/-- Edges of the relabeled bipartite graph. -/
def rEdges (firms_per_label : List ℕ) (ps : List (List ℕ)) : List (ℕ × ℕ) :=
  (bipEdges firms_per_label ps).map
    (fun e => (relabelMap firms_per_label ps e.1, relabelMap firms_per_label ps e.2))

/-- Label attribute of relabeled node `i` (labels travel with the nodes
through `nx.relabel_nodes`). -/
def rLabel (firms_per_label : List ℕ) (ps : List (List ℕ)) (i : ℕ) : ℕ :=
  nodeLabel firms_per_label ((prunedNodes firms_per_label ps).getD i 0)

/-- Predecessor list of relabeled node `i`, in edge-insertion order. -/
def predsOf (firms_per_label : List ℕ) (ps : List (List ℕ)) (i : ℕ) : List ℕ :=
  ((rEdges firms_per_label ps).filter (fun e => e.2 == i)).map Prod.fst

/-- The per-label grouping `product = {label: [...]}` rebuilt from a product
node's predecessors: position `l` holds this product's firms of label `l`, in
predecessor order. -/
def groupByLabel (firms_per_label : List ℕ) (ps : List (List ℕ))
    (firms : List ℕ) : List (List ℕ) :=
  (List.range firms_per_label.length).map
    (fun l => firms.filter (fun f => rLabel firms_per_label ps f == l))

/-- Relabeled nodes with at least one predecessor (exactly the product
nodes), in node order. -/
def productNodes (firms_per_label : List ℕ) (ps : List (List ℕ)) : List ℕ :=
  (List.range (prunedNodes firms_per_label ps).length).filter
    (fun i => 0 < (predsOf firms_per_label ps i).length)

/-- The rebuilt `product_list` of the second half of `create_graph`: one
per-label grouping per surviving product node. -/
def outProducts (firms_per_label : List ℕ) (ps : List (List ℕ)) :
    List (List (List ℕ)) :=
  (productNodes firms_per_label ps).map
    (fun i => groupByLabel firms_per_label ps (predsOf firms_per_label ps i))

/-- The output graph's node set (`node_set` in the source, a Python set):
all predecessors of product nodes, deduplicated. -/
def node_set (firms_per_label : List ℕ) (ps : List (List ℕ)) : List ℕ :=
  ((productNodes firms_per_label ps).flatMap (predsOf firms_per_label ps)).dedup

/-- The source's `active_labels` of one rebuilt product: labels with a
non-empty selection, in increasing label order (Python dict keys iterate in
insertion order, which is `range(labels)`). -/
def active_labels (prod : List (List ℕ)) : List ℕ :=
  (List.range prod.length).filter (fun l => 0 < (prod.getD l []).length)

/-- Output edges contributed by one rebuilt product: complete bipartite
connections between each consecutive pair of its active labels. -/
def productEdges (prod : List (List ℕ)) : List (ℕ × ℕ) :=
  (List.range ((active_labels prod).length - 1)).flatMap (fun i =>
    (prod.getD ((active_labels prod).getD i 0) []).flatMap (fun firm1 =>
      (prod.getD ((active_labels prod).getD (i + 1) 0) []).map
        (fun firm2 => (firm1, firm2))))

/-- All edges of the output supply-chain graph, in insertion order. -/
def ogEdges (firms_per_label : List ℕ) (ps : List (List ℕ)) : List (ℕ × ℕ) :=
  (outProducts firms_per_label ps).flatMap productEdges

/-- Output supply-chain graph: node list and edge list (what
`nx.node_link_data` serializes). -/
structure SCGraph where
  nodes : List ℕ
  edges : List (ℕ × ℕ)
deriving DecidableEq

/-- The core of the source's `create_graph` (pdf rendering and the
`graph_num` file-name argument are out-of-scope I/O). -/
def create_graph (O : Oracle) (firms_per_label : List ℕ)
    (number_products : ℕ) (connect_vector : List ℕ) (radius : ℚ) : SCGraph :=
  let ps := product_list O firms_per_label number_products connect_vector radius
  ⟨node_set firms_per_label ps, ogEdges firms_per_label ps⟩

/-- Label attribute of node `i` of the output graph of `create_graph`. -/
def create_graph_label (O : Oracle) (firms_per_label : List ℕ)
    (number_products : ℕ) (connect_vector : List ℕ) (radius : ℚ) (i : ℕ) : ℕ :=
  rLabel firms_per_label
    (product_list O firms_per_label number_products connect_vector radius) i

/-- Python's `round` on a nonnegative rational: round half to even
(the source computes `round(number_firms/number_labels)`). -/
def pyRound (q : ℚ) : ℕ :=
  (if q - q.floor < 1 / 2 then q.floor
   else if 1 / 2 < q - q.floor then q.floor + 1
   else if q.floor % 2 = 0 then q.floor else q.floor + 1).toNat

/-- The source's `firms_per_label = [round(number_firms/number_labels)]*number_labels`. -/
def firmsPerLabelOf (number_firms number_labels : ℕ) : List ℕ :=
  List.replicate number_labels
    (pyRound ((number_firms : ℚ) / (number_labels : ℚ)))

/-- The per-graph sub-seeds: `seeds = [rnd.randint(1,100000) for _ in
range(number_graphs)]`, drawn from the master stream (the oracle of the
master seed) in index order. -/
def seedsOf (Fam : ℕ → Oracle) (seed number_graphs : ℕ) : List ℕ :=
  (List.range number_graphs).map (fun i => (Fam seed).randint i 1 100000)

/-- The batch result `full_dict` (pdf list omitted: I/O). -/
structure Batch where
  firms_per_label : List ℕ
  number_products : ℕ
  radius : ℚ
  seed : ℕ
  graphs : List SCGraph

/-- The source's `create_multiple_graphs`.  `Fam` maps a seed to the stream
of the global generator after `rnd.seed(seed)`; each graph runs on the stream
of its sub-seed. -/
def create_multiple_graphs (Fam : ℕ → Oracle) (number_graphs number_firms
    number_products number_labels : ℕ) (radius : ℚ)
    (connect_vector : Option (List ℕ)) (seed : ℕ) : Batch :=
  let fpl := firmsPerLabelOf number_firms number_labels
  let cv := connect_vector.getD (List.replicate number_labels 1)
  let seeds := seedsOf Fam seed number_graphs
  { firms_per_label := fpl
    number_products := number_products
    radius := radius
    seed := seed
    graphs := (List.range number_graphs).map
      (fun i => create_graph (Fam (seeds.getD i 0)) fpl number_products cv radius) }

/-- A concrete valid oracle: every unit draw is `0`, every `sample` call
returns the population unshuffled, `randint` returns the lower end. -/
def oracleZero : Oracle :=
  ⟨fun _ => 0, fun _ pop => pop, fun _ a _ => a⟩

/-- A concrete valid oracle whose `sample` call number 9 shuffles the
population into reverse order; all other calls are as in `oracleZero`. -/
def oracleSwap : Oracle :=
  ⟨fun _ => 0, fun n pop => if n = 9 then pop.reverse else pop, fun _ a _ => a⟩

/-- Oracle family assigning `oracleZero` to every seed. -/
def famZero : ℕ → Oracle := fun _ => oracleZero

/-- Oracle family whose `randint` always returns `5` (a possible run of
`rnd.randint(1, 100000)`). -/
def famFive : ℕ → Oracle :=
  fun _ => ⟨fun _ => 0, fun _ pop => pop, fun _ _ _ => 5⟩

end SCN

namespace SCN

theorem oracleZero_validRandom : oracleZero.ValidRandom :=
  fun _ => ⟨le_refl 0, by norm_num [oracleZero]⟩

theorem oracleZero_validSample : oracleZero.ValidSample :=
  fun _ _ _ hx => hx

theorem oracleSwap_validSample : oracleSwap.ValidSample := by
  intro n pop x hx
  simp only [oracleSwap] at hx
  split at hx
  · exact (List.mem_reverse).mp hx
  · exact hx

theorem famZero_validRandint (s : ℕ) : (famZero s).ValidRandint :=
  fun _ a _ hab => ⟨le_refl a, hab⟩

/-- One product attempt either appends the candidate (when it is new as a
sequence and has at least two entries) or leaves the accepted list unchanged. -/
theorem productStep_product_list (O : Oracle) (fpl cv : List ℕ) (radius : ℚ)
    (st : PState) :
    (productStep O fpl cv radius st).product_list =
      if candidate O fpl cv radius st ∉ st.product_list ∧
          1 < (candidate O fpl cv radius st).length then
        st.product_list ++ [candidate O fpl cv radius st]
      else st.product_list := by
  unfold productStep
  by_cases h : candidate O fpl cv radius st ∉ st.product_list ∧
      1 < (candidate O fpl cv radius st).length
  · rw [if_pos h, if_pos h]
  · rw [if_neg h, if_neg h]

/-- Invariants of the product-attempt loop carry over to `product_list`. -/
theorem productLoop_induct (O : Oracle) (fpl cv : List ℕ) (radius : ℚ)
    (C : List (List ℕ) → Prop)
    (hstep : ∀ st : PState, C st.product_list →
      C (productStep O fpl cv radius st).product_list)
    (l : List ℕ) (init : PState) (hinit : C init.product_list) :
    C ((l.foldl (fun st _ => productStep O fpl cv radius st) init).product_list) := by
  induction l generalizing init with
  | nil => exact hinit
  | cons a t ih => exact ih _ (hstep _ hinit)

/-- The accepted products are pairwise distinct sequences, each with more
than one entry. -/
theorem product_list_nodup_len (O : Oracle) (fpl : List ℕ)
    (number_products : ℕ) (cv : List ℕ) (radius : ℚ) :
    (product_list O fpl number_products cv radius).Nodup ∧
      ∀ p ∈ product_list O fpl number_products cv radius, 1 < p.length := by
  unfold product_list
  refine productLoop_induct O fpl cv radius
    (fun ps => ps.Nodup ∧ ∀ p ∈ ps, 1 < p.length) ?_ (List.range number_products)
    _ ⟨List.nodup_nil, by simp⟩
  intro st hst
  rw [productStep_product_list]
  split
  next h =>
    constructor
    · simp only [List.nodup_append, List.nodup_singleton, true_and]
      exact ⟨hst.1, by simpa using fun hmem => h.1 hmem⟩
    · intro p hp
      rcases List.mem_append.mp hp with hp | hp
      · exact hst.2 p hp
      · rw [List.mem_singleton.mp hp]
        exact h.2
  next => exact hst

/-- Claim C1 (amended): a candidate product is accepted iff it has strictly
more than one selected firm AND no previously accepted candidate in this
graph is the identical firm-sequence (Python list equality: same firms in the
same per-label, per-sample order).  Consequently the accepted list holds
pairwise distinct sequences of length at least two.  Deduplication is NOT by
unordered set: see the counterexample. -/
theorem C1_acceptance (O : Oracle) (fpl cv : List ℕ) (radius : ℚ)
    (number_products : ℕ) (st : PState) :
    ((productStep O fpl cv radius st).product_list =
      if candidate O fpl cv radius st ∉ st.product_list ∧
          1 < (candidate O fpl cv radius st).length then
        st.product_list ++ [candidate O fpl cv radius st]
      else st.product_list) ∧
    (product_list O fpl number_products cv radius).Nodup ∧
    ∀ p ∈ product_list O fpl number_products cv radius, 1 < p.length :=
  ⟨productStep_product_list O fpl cv radius st,
   (product_list_nodup_len O fpl number_products cv radius).1,
   (product_list_nodup_len O fpl number_products cv radius).2⟩

/-- Witness for `C1_acceptance` at a concrete run (two firms, one label,
capacity two): the single accepted product is `[0, 1]`. -/
theorem C1_acceptance_witness :
    (product_list oracleZero [2] 1 [2] 1).Nodup ∧ 1 < ([0, 1] : List ℕ).length :=
  ⟨(C1_acceptance oracleZero [2] [2] 1 1 ⟨[], 0⟩).2.1,
   (C1_acceptance oracleZero [2] [2] 1 1 ⟨[], 0⟩).2.2 [0, 1]
     (by with_unfolding_all decide)⟩

/-- Counterexample to C1 as stated: two firms of one label, capacity 2, both
candidates select both firms but sample call 9 returns them in reverse order.
The second candidate's firm-set equals the first accepted product's firm-set
as an unordered set, yet it is ACCEPTED (the source deduplicates by list
equality), contradicting the claim that it is rejected. -/
theorem C1_counterexample :
    product_list oracleSwap [2] 2 [2] 1 = [[0, 1], [1, 0]] ∧
    ([1, 0] : List ℕ).toFinset = ([0, 1] : List ℕ).toFinset ∧
    ([1, 0] : List ℕ) ≠ [0, 1] := by
  refine ⟨by with_unfolding_all decide, by decide, by decide⟩

/-- Claim C2 (amended): each position coordinate is a unit draw in `[0, 1)`
scaled by the square root of `posScaleSq`, and that squared scale is the
REALIZED total firm count `sum(firms_per_label) = number_labels *
round(number_firms/number_labels)`, not the requested `number_firms`. -/
theorem C2_position_scale (O : Oracle) (h : O.ValidRandom)
    (number_firms number_labels : ℕ) :
    (∀ n, 0 ≤ (firmPos O n).1 ∧ (firmPos O n).1 < 1 ∧
          0 ≤ (firmPos O n).2 ∧ (firmPos O n).2 < 1) ∧
    posScaleSq (firmsPerLabelOf number_firms number_labels) =
      number_labels * pyRound ((number_firms : ℚ) / (number_labels : ℚ)) := by
  constructor
  · intro n
    exact ⟨(h (2 * n)).1, (h (2 * n)).2, (h (2 * n + 1)).1, (h (2 * n + 1)).2⟩
  · simp [posScaleSq, firmsPerLabelOf, List.sum_replicate, smul_eq_mul]

/-- Witness for `C2_position_scale` at the oracle of constant draws and the
batch configuration `number_firms = 10`, `number_labels = 4`. -/
theorem C2_position_scale_witness :
    (0 ≤ (firmPos oracleZero 3).1 ∧ (firmPos oracleZero 3).1 < 1 ∧
     0 ≤ (firmPos oracleZero 3).2 ∧ (firmPos oracleZero 3).2 < 1) ∧
    posScaleSq (firmsPerLabelOf 10 4) = 4 * pyRound ((10 : ℚ) / (4 : ℚ)) :=
  ⟨(C2_position_scale oracleZero oracleZero_validRandom 10 4).1 3,
   (C2_position_scale oracleZero oracleZero_validRandom 10 4).2⟩

/-- Counterexample to C2 as stated: for requested firm count 10 and 4 labels
the batch rounds to 2 firms per label, and the squared position scale used is
the realized total 8, not the requested 10 — so coordinates are drawn in
`[0, sqrt 8)`, not uniformly in `[0, sqrt 10)`. -/
theorem C2_counterexample :
    posScaleSq (create_multiple_graphs famZero 0 10 0 4 1 none 9453).firms_per_label
      = 8 ∧ (8 : ℕ) ≠ 10 := by
  refine ⟨by with_unfolding_all decide, by decide⟩

/-- Claim C3 (code bug): `create_multiple_graphs` performs no configuration
validation.  At the invalid configuration with 4 labels but only 2 firms and
negative radius it returns a normal batch with one (empty) graph instead of
an eager typed `InvalidConfig` failure — the embedding is a total function
with no failure path, mirroring the source, whose parameter checks are an
unimplemented TODO. -/
theorem C3_no_validation :
    (create_multiple_graphs famZero 1 2 1 4 (-1) (some [1, 1, 1, 1]) 7).graphs
      = [⟨[], []⟩] ∧
    (create_multiple_graphs famZero 1 2 1 4 (-1) (some [1, 1, 1, 1]) 7).firms_per_label
      = [0, 0, 0, 0] := by
  with_unfolding_all decide

/-- Claim C8 (amended): the batch call returns exactly `number_graphs`
graphs; the sub-seeds are the `randint(1, 100000)` draws of the master-seeded
stream, taken in graph-index order, each in `[1, 100000]` when the oracle is
valid.  Distinctness of the sub-seeds is NOT guaranteed: see the
counterexample. -/
theorem C8_batch_seeds (Fam : ℕ → Oracle) (number_graphs number_firms
    number_products number_labels : ℕ) (radius : ℚ)
    (connect_vector : Option (List ℕ)) (seed : ℕ)
    (h : (Fam seed).ValidRandint) :
    (create_multiple_graphs Fam number_graphs number_firms number_products
        number_labels radius connect_vector seed).graphs.length = number_graphs ∧
    seedsOf Fam seed number_graphs =
      (List.range number_graphs).map (fun i => (Fam seed).randint i 1 100000) ∧
    ∀ s ∈ seedsOf Fam seed number_graphs, 1 ≤ s ∧ s ≤ 100000 := by
  refine ⟨by simp [create_multiple_graphs], rfl, ?_⟩
  intro s hs
  rcases List.mem_map.mp hs with ⟨i, _, rfl⟩
  exact h i 1 100000 (by norm_num)

/-- Witness for `C8_batch_seeds` at the all-zero oracle family with two
graphs requested. -/
theorem C8_batch_seeds_witness :
    (create_multiple_graphs famZero 2 2 1 1 1 none 0).graphs.length = 2 ∧
    1 ≤ (1 : ℕ) ∧ (1 : ℕ) ≤ 100000 :=
  ⟨(C8_batch_seeds famZero 2 2 1 1 1 none 0 (famZero_validRandint 0)).1,
   (C8_batch_seeds famZero 2 2 1 1 1 none 0 (famZero_validRandint 0)).2.2 1
     (by with_unfolding_all decide)⟩

/-- Invariants of the per-label selection loop carry over to the candidate. -/
theorem selectLoop_induct (O : Oracle) (fpl cv : List ℕ) (radius : ℚ)
    (ppos : ℚ × ℚ) (C : List ℕ → Prop)
    (hstep : ∀ (st : SelState) (label : ℕ), C st.new_product →
      C (selectStep O fpl cv radius ppos st label).new_product)
    (l : List ℕ) (init : SelState) (hinit : C init.new_product) :
    C ((l.foldl (selectStep O fpl cv radius ppos) init).new_product) := by
  induction l generalizing init with
  | nil => exact hinit
  | cons a t ih => exact ih _ (hstep _ _ hinit)

/-- If all capacities are zero or the radius is non-positive, one selection
step never adds a firm. -/
theorem selectStep_nil (O : Oracle) (fpl cv : List ℕ) (radius : ℚ)
    (ppos : ℚ × ℚ) (st : SelState) (label : ℕ)
    (h : (∀ c ∈ cv, c = 0) ∨ radius ≤ 0) (hst : st.new_product = []) :
    (selectStep O fpl cv radius ppos st label).new_product = [] := by
  unfold selectStep
  rcases h with h | h
  · have hcv : cv.getD label 0 = 0 := by
      rcases Nat.lt_or_ge label cv.length with hl | hl
      · rw [List.getD_eq_getElem _ _ hl]
        exact h _ (List.getElem_mem hl)
      · exact List.getD_eq_default _ _ hl
    split
    · rw [hcv]
      simp [hst]
    · exact hst
  · have hnir : nodes_in_range O fpl radius ppos label = [] := by
      unfold nodes_in_range
      refine List.filter_eq_nil_iff.mpr ?_
      intro a _
      simp [inRange, not_lt.mpr h]
    rw [hnir]
    simpa using hst

/-- If all capacities are zero or the radius is non-positive, every candidate
is empty. -/
theorem candidate_nil (O : Oracle) (fpl cv : List ℕ) (radius : ℚ) (st : PState)
    (h : (∀ c ∈ cv, c = 0) ∨ radius ≤ 0) :
    candidate O fpl cv radius st = [] := by
  unfold candidate attemptSelect
  exact selectLoop_induct O fpl cv radius _ (fun np => np = [])
    (fun s label hs => selectStep_nil O fpl cv radius _ s label h hs) _ _ rfl

/-- If all capacities are zero or the radius is non-positive, no product is
ever accepted. -/
theorem product_list_nil (O : Oracle) (fpl : List ℕ) (number_products : ℕ)
    (cv : List ℕ) (radius : ℚ)
    (h : (∀ c ∈ cv, c = 0) ∨ radius ≤ 0) :
    product_list O fpl number_products cv radius = [] := by
  unfold product_list
  refine productLoop_induct O fpl cv radius (fun ps => ps = []) ?_ _ _ rfl
  intro st hst
  rw [productStep_product_list, candidate_nil O fpl cv radius st h]
  simpa using hst

/-- With no accepted products there are no edges, so pruning removes every
firm. -/
theorem prunedNodes_nil (fpl : List ℕ) : prunedNodes fpl [] = [] := by
  unfold prunedNodes bipEdges
  simp [List.filter_eq_nil_iff, hasEdge]

/-- With no accepted products the output node set is empty. -/
theorem node_set_nil (fpl : List ℕ) : node_set fpl [] = [] := by
  simp [node_set, productNodes, prunedNodes_nil]

/-- With no accepted products the output edge list is empty. -/
theorem ogEdges_nil (fpl : List ℕ) : ogEdges fpl [] = [] := by
  simp [ogEdges, outProducts, productNodes, prunedNodes_nil]

/-- Claim C9: if the capacity vector is zero at every label, or the radius is
non-positive, every candidate product is rejected: the graph has zero
accepted products and its output has zero nodes and zero edges.  This is a
normal return value — the embedding, like the source, has no error path
here. -/
theorem C9_degenerate_empty (O : Oracle) (fpl : List ℕ) (number_products : ℕ)
    (cv : List ℕ) (radius : ℚ)
    (h : (∀ c ∈ cv, c = 0) ∨ radius ≤ 0) :
    product_list O fpl number_products cv radius = [] ∧
    (create_graph O fpl number_products cv radius).nodes = [] ∧
    (create_graph O fpl number_products cv radius).edges = [] := by
  have hps := product_list_nil O fpl number_products cv radius h
  refine ⟨hps, ?_, ?_⟩
  · show node_set fpl (product_list O fpl number_products cv radius) = []
    rw [hps]
    exact node_set_nil fpl
  · show ogEdges fpl (product_list O fpl number_products cv radius) = []
    rw [hps]
    exact ogEdges_nil fpl

/-- Witness for `C9_degenerate_empty`: two firms, one label, capacity 0. -/
theorem C9_degenerate_empty_witness :
    product_list oracleZero [2] 3 [0] 1 = [] ∧
    (create_graph oracleZero [2] 3 [0] 1).nodes = [] ∧
    (create_graph oracleZero [2] 3 [0] 1).edges = [] :=
  C9_degenerate_empty oracleZero [2] 3 [0] 1 (Or.inl (by decide))

/-- Counterexample to C4 as stated: three labels with one firm each and
capacity vector `[1, 0, 1]`; the only accepted product selects the firms of
labels 0 and 2 (label 1 contributes nothing, its capacity is 0), and the
output graph contains the edge `(0, 1)` from a label-0 firm to a label-2
firm — a jump of two labels, not `i` to `i+1`. -/
theorem C4_counterexample :
    (create_graph oracleZero [1, 1, 1] 1 [1, 0, 1] 1).edges = [(0, 1)] ∧
    create_graph_label oracleZero [1, 1, 1] 1 [1, 0, 1] 1 0 = 0 ∧
    create_graph_label oracleZero [1, 1, 1] 1 [1, 0, 1] 1 1 = 2 ∧
    (2 : ℕ) ≠ 0 + 1 := by
  refine ⟨by with_unfolding_all decide, by with_unfolding_all decide,
    by with_unfolding_all decide, by decide⟩

/-- Counterexample to C6 as stated: one label with two firms and capacity 2;
the single accepted product holds both firms in one (single) active label,
so the compiler emits no edges and node `0` of the output graph is isolated
(degree 0). -/
theorem C6_counterexample :
    (create_graph oracleZero [2] 1 [2] 1).nodes = [0, 1] ∧
    (create_graph oracleZero [2] 1 [2] 1).edges = [] := by
  refine ⟨by with_unfolding_all decide, by with_unfolding_all decide⟩

/-- Counterexample to C8 as stated: a valid run of the master stream may
return the same `randint(1, 100000)` value, here `5`, for both sub-seed
draws, so the sub-seeds are not distinct even though each lies in
`[1, 100000]`. -/
theorem C8_counterexample :
    seedsOf famFive 0 2 = [5, 5] ∧ ¬ (seedsOf famFive 0 2).Nodup ∧
    (seedsOf famFive 0 2).all
      (fun s => decide (1 ≤ s) && decide (s ≤ 100000)) = true := by
  refine ⟨by with_unfolding_all decide, by with_unfolding_all decide,
    by with_unfolding_all decide⟩

/-- `getD` of a map over `range` evaluates pointwise. -/
theorem getD_map_range {α : Type} (g : ℕ → α) {n l : ℕ} (d : α) :
    ((List.range n).map g).getD l d = if l < n then g l else d := by
  rcases Nat.lt_or_ge l n with h | h
  · have hl : l < ((List.range n).map g).length := by simpa using h
    rw [if_pos h, List.getD_eq_getElem _ _ hl]
    simp
  · rw [if_neg (Nat.not_lt.mpr h), List.getD_eq_default]
    simpa using h

/-- `active_labels` is strictly increasing (it filters the increasing
`range`). -/
theorem active_labels_pairwise (prod : List (List ℕ)) :
    (active_labels prod).Pairwise (· < ·) :=
  (List.pairwise_lt_range _).filter _

/-- Consecutive entries of `active_labels` strictly increase. -/
theorem active_labels_lt (prod : List (List ℕ)) {i : ℕ}
    (h : i + 1 < (active_labels prod).length) :
    (active_labels prod).getD i 0 < (active_labels prod).getD (i + 1) 0 := by
  have hi : i < (active_labels prod).length := Nat.lt_of_succ_lt h
  rw [List.getD_eq_getElem _ _ hi, List.getD_eq_getElem _ _ h]
  exact List.pairwise_iff_getElem.mp (active_labels_pairwise prod) i (i + 1) hi h
    (Nat.lt_succ_self i)

/-- A label is active iff it indexes a non-empty selection of the product. -/
theorem mem_active_labels {prod : List (List ℕ)} {l : ℕ} :
    l ∈ active_labels prod ↔ l < prod.length ∧ 0 < (prod.getD l []).length := by
  unfold active_labels
  simp [List.mem_filter]

/-- An active label's selection is non-empty. -/
theorem active_getD_nonempty {prod : List (List ℕ)} {i : ℕ}
    (hi : i < (active_labels prod).length) :
    ∃ w, w ∈ prod.getD ((active_labels prod).getD i 0) [] := by
  have hmem : (active_labels prod).getD i 0 ∈ active_labels prod := by
    rw [List.getD_eq_getElem _ _ hi]
    exact List.getElem_mem hi
  exact List.exists_mem_of_length_pos (mem_active_labels.mp hmem).2

/-- The rebuilt per-label grouping has one entry per label. -/
theorem groupByLabel_length (fpl : List ℕ) (ps : List (List ℕ))
    (firms : List ℕ) : (groupByLabel fpl ps firms).length = fpl.length := by
  unfold groupByLabel
  simp

/-- Entry `l` of the rebuilt grouping is the label-`l` filter of the
predecessor list. -/
theorem groupByLabel_getD (fpl : List ℕ) (ps : List (List ℕ)) (firms : List ℕ)
    {l : ℕ} (h : l < fpl.length) :
    (groupByLabel fpl ps firms).getD l [] =
      firms.filter (fun f => rLabel fpl ps f == l) := by
  unfold groupByLabel
  rw [getD_map_range, if_pos h]

/-- A firm listed in entry `l` of a rebuilt grouping carries label `l`. -/
theorem rLabel_of_mem_getD {fpl : List ℕ} {ps : List (List ℕ)}
    {firms : List ℕ} {l f : ℕ}
    (hf : f ∈ (groupByLabel fpl ps firms).getD l []) :
    rLabel fpl ps f = l := by
  rcases Nat.lt_or_ge l fpl.length with hl | hl
  · rw [groupByLabel_getD fpl ps firms hl] at hf
    simpa using (List.mem_filter.mp hf).2
  · rw [List.getD_eq_default] at hf
    · cases hf
    · rw [groupByLabel_length]
      exact hl

/-- Every output edge of one product connects the selections of two
consecutive active labels. -/
theorem mem_productEdges {prod : List (List ℕ)} {e : ℕ × ℕ}
    (he : e ∈ productEdges prod) :
    ∃ i, i + 1 < (active_labels prod).length ∧
      e.1 ∈ prod.getD ((active_labels prod).getD i 0) [] ∧
      e.2 ∈ prod.getD ((active_labels prod).getD (i + 1) 0) [] := by
  unfold productEdges at he
  rcases List.mem_flatMap.mp he with ⟨i, hi, hin⟩
  rcases List.mem_flatMap.mp hin with ⟨f1, hf1, hmap⟩
  rcases List.mem_map.mp hmap with ⟨f2, hf2, rfl⟩
  exact ⟨i, Nat.add_lt_of_lt_sub (List.mem_range.mp hi), hf1, hf2⟩

/-- Every output edge comes from some rebuilt product. -/
theorem mem_ogEdges {fpl : List ℕ} {ps : List (List ℕ)} {e : ℕ × ℕ}
    (he : e ∈ ogEdges fpl ps) :
    ∃ prod ∈ outProducts fpl ps, e ∈ productEdges prod :=
  List.mem_flatMap.mp he

/-- Labels strictly increase along every output edge. -/
theorem ogEdges_label_lt {fpl : List ℕ} {ps : List (List ℕ)} {e : ℕ × ℕ}
    (he : e ∈ ogEdges fpl ps) :
    rLabel fpl ps e.1 < rLabel fpl ps e.2 := by
  rcases mem_ogEdges he with ⟨prod, hprod, hpe⟩
  rcases List.mem_map.mp hprod with ⟨pn, _, rfl⟩
  rcases mem_productEdges hpe with ⟨i, hi, h1, h2⟩
  rw [rLabel_of_mem_getD h1, rLabel_of_mem_getD h2]
  exact active_labels_lt _ hi

/-- Claim C5: for every edge `(u, v)` of every output supply-chain graph,
`label(u) < label(v)` strictly — no edge stays inside a label or goes to an
earlier label. -/
theorem C5_label_edge_ordering (O : Oracle) (fpl : List ℕ)
    (number_products : ℕ) (cv : List ℕ) (radius : ℚ) :
    ∀ e ∈ (create_graph O fpl number_products cv radius).edges,
      create_graph_label O fpl number_products cv radius e.1 <
        create_graph_label O fpl number_products cv radius e.2 := by
  intro e he
  exact ogEdges_label_lt he

/-- Witness for `C5_label_edge_ordering`: two labels with one firm each; the
output edge `(0, 1)` goes from label 0 to label 1. -/
theorem C5_label_edge_ordering_witness :
    create_graph_label oracleZero [1, 1] 1 [1, 1] 1 0 <
      create_graph_label oracleZero [1, 1] 1 [1, 1] 1 1 :=
  C5_label_edge_ordering oracleZero [1, 1] 1 [1, 1] 1 (0, 1)
    (by with_unfolding_all decide)

/-- Claim C4 (amended): every directed edge of the output graph connects the
selections of two CONSECUTIVE ACTIVE labels of a common accepted product, the
source label strictly smaller than the destination label; the destination
label need not be `i + 1` — inactive labels in between are skipped (see the
counterexample). -/
theorem C4_edges_consecutive_active (O : Oracle) (fpl : List ℕ)
    (number_products : ℕ) (cv : List ℕ) (radius : ℚ) :
    ∀ e ∈ (create_graph O fpl number_products cv radius).edges,
      ∃ prod ∈ outProducts fpl (product_list O fpl number_products cv radius),
        ∃ i, i + 1 < (active_labels prod).length ∧
          e.1 ∈ prod.getD ((active_labels prod).getD i 0) [] ∧
          e.2 ∈ prod.getD ((active_labels prod).getD (i + 1) 0) [] ∧
          (active_labels prod).getD i 0 < (active_labels prod).getD (i + 1) 0 := by
  intro e he
  rcases mem_ogEdges he with ⟨prod, hprod, hpe⟩
  rcases mem_productEdges hpe with ⟨i, hi, h1, h2⟩
  exact ⟨prod, hprod, i, hi, h1, h2, active_labels_lt prod hi⟩

/-- Witness for `C4_edges_consecutive_active` at the three-label skip
configuration: the edge `(0, 1)` connects selections of consecutive active
labels 0 and 2. -/
theorem C4_edges_consecutive_active_witness :
    ∃ prod ∈ outProducts [1, 1, 1]
        (product_list oracleZero [1, 1, 1] 1 [1, 0, 1] 1),
      ∃ i, i + 1 < (active_labels prod).length ∧
        (0 : ℕ) ∈ prod.getD ((active_labels prod).getD i 0) [] ∧
        (1 : ℕ) ∈ prod.getD ((active_labels prod).getD (i + 1) 0) [] ∧
        (active_labels prod).getD i 0 < (active_labels prod).getD (i + 1) 0 :=
  C4_edges_consecutive_active oracleZero [1, 1, 1] 1 [1, 0, 1] 1 (0, 1)
    (by with_unfolding_all decide)

/-- Claim C6 (amended): a node of the output graph that is selected into at
least one accepted product with two or more active labels has degree at least
one.  (Nodes all of whose products have a single active label can be
isolated: see the counterexample.) -/
theorem C6_degree_of_multilabel (O : Oracle) (fpl : List ℕ)
    (number_products : ℕ) (cv : List ℕ) (radius : ℚ) (v l : ℕ)
    (prod : List (List ℕ))
    (hprod : prod ∈ outProducts fpl
      (product_list O fpl number_products cv radius))
    (hv : v ∈ prod.getD l []) (h2 : 2 ≤ (active_labels prod).length) :
    ∃ e ∈ (create_graph O fpl number_products cv radius).edges,
      e.1 = v ∨ e.2 = v := by
  have hlp : l < prod.length := by
    by_contra hge
    rw [List.getD_eq_default _ _ (Nat.le_of_not_lt hge)] at hv
    cases hv
  have hmem : l ∈ active_labels prod :=
    mem_active_labels.mpr ⟨hlp, List.length_pos_of_mem hv⟩
  rcases List.getElem_of_mem hmem with ⟨i, hi, hil⟩
  have hgetDi : (active_labels prod).getD i 0 = l := by
    rw [List.getD_eq_getElem _ _ hi]
    exact hil
  rcases Nat.lt_or_ge (i + 1) (active_labels prod).length with hlt | hge
  · rcases active_getD_nonempty hlt with ⟨w, hw⟩
    refine ⟨(v, w), ?_, Or.inl rfl⟩
    refine List.mem_flatMap.mpr ⟨prod, hprod, ?_⟩
    refine List.mem_flatMap.mpr ⟨i, List.mem_range.mpr (by omega), ?_⟩
    refine List.mem_flatMap.mpr ⟨v, ?_, ?_⟩
    · rw [hgetDi]
      exact hv
    · exact List.mem_map.mpr ⟨w, hw, rfl⟩
  · have hj : i - 1 < (active_labels prod).length := by omega
    rcases active_getD_nonempty hj with ⟨w, hw⟩
    refine ⟨(w, v), ?_, Or.inr rfl⟩
    refine List.mem_flatMap.mpr ⟨prod, hprod, ?_⟩
    refine List.mem_flatMap.mpr ⟨i - 1, List.mem_range.mpr (by omega), ?_⟩
    refine List.mem_flatMap.mpr ⟨w, hw, ?_⟩
    refine List.mem_map.mpr ⟨v, ?_, rfl⟩
    have hj1 : i - 1 + 1 = i := by omega
    rw [hj1, hgetDi]
    exact hv

/-- Witness for `C6_degree_of_multilabel`: two labels, one firm each; node 0
lies in a product with two active labels and indeed has an incident edge. -/
theorem C6_degree_of_multilabel_witness :
    ∃ e ∈ (create_graph oracleZero [1, 1] 1 [1, 1] 1).edges,
      e.1 = 0 ∨ e.2 = 0 :=
  C6_degree_of_multilabel oracleZero [1, 1] 1 [1, 1] 1 0 0 [[0], [1]]
    (by with_unfolding_all decide) (by with_unfolding_all decide)
    (by with_unfolding_all decide)

/-- A label block ends no later than the total firm count. -/
theorem blockStart_add_getD_le (fpl : List ℕ) (label : ℕ) :
    blockStart fpl label + fpl.getD label 0 ≤ fpl.sum := by
  unfold blockStart
  induction fpl generalizing label with
  | nil => simp
  | cons c rest ih =>
    cases label with
    | zero =>
      simp only [List.take_zero, List.sum_nil, List.getD_cons_zero, List.sum_cons]
      omega
    | succ k =>
      simp only [List.take_succ_cons, List.sum_cons, List.getD_cons_succ]
      have := ih k
      omega

/-- Firm ids in a label block are below the realized total firm count. -/
theorem label_nodes_lt {fpl : List ℕ} {label f : ℕ}
    (hf : f ∈ label_nodes fpl label) : f < fpl.sum := by
  unfold label_nodes at hf
  rw [List.mem_range'] at hf
  rcases hf with ⟨i, hi, rfl⟩
  have := blockStart_add_getD_le fpl label
  omega

/-- Under a valid sampler every firm selected into a candidate is a real
firm id. -/
theorem candidate_mem_lt (O : Oracle) (fpl cv : List ℕ) (radius : ℚ)
    (st : PState) (h : O.ValidSample) :
    ∀ f ∈ candidate O fpl cv radius st, f < fpl.sum := by
  unfold candidate attemptSelect
  refine selectLoop_induct O fpl cv radius _ (fun np => ∀ f ∈ np, f < fpl.sum)
    ?_ _ _ (by simp)
  intro s label hs
  unfold selectStep
  split
  · intro f hf
    rcases List.mem_append.mp hf with hf | hf
    · exact hs f hf
    · have hsamp := List.take_subset _ _ hf
      have hnir := h s.ctr _ _ hsamp
      exact label_nodes_lt (List.mem_filter.mp hnir).1
  · exact hs

/-- Under a valid sampler all accepted product entries are firm ids. -/
theorem product_list_mem_lt (O : Oracle) (fpl : List ℕ) (number_products : ℕ)
    (cv : List ℕ) (radius : ℚ) (h : O.ValidSample) :
    ∀ p ∈ product_list O fpl number_products cv radius, ∀ f ∈ p, f < fpl.sum := by
  unfold product_list
  refine productLoop_induct O fpl cv radius
    (fun ps => ∀ p ∈ ps, ∀ f ∈ p, f < fpl.sum) ?_ _ _ (by simp)
  intro st hst
  rw [productStep_product_list]
  split
  next h1 =>
    intro p hp
    rcases List.mem_append.mp hp with hp | hp
    · exact hst p hp
    · rw [List.mem_singleton.mp hp]
      exact candidate_mem_lt O fpl cv radius st h
  next => exact hst

/-- Structure of the bipartite edges: firm into product `j`'s node. -/
theorem mem_bipEdges {fpl : List ℕ} {ps : List (List ℕ)} {e : ℕ × ℕ}
    (he : e ∈ bipEdges fpl ps) :
    ∃ j < ps.length, e.2 = fpl.sum + j ∧ e.1 ∈ ps.getD j [] := by
  unfold bipEdges at he
  rcases List.mem_flatMap.mp he with ⟨j, hj, hin⟩
  rcases List.mem_map.mp hin with ⟨f, hf, rfl⟩
  exact ⟨j, List.mem_range.mp hj, rfl, hf⟩

/-- Converse: each selected firm contributes its edge. -/
theorem bipEdges_of_mem {fpl : List ℕ} {ps : List (List ℕ)} {j f : ℕ}
    (hj : j < ps.length) (hf : f ∈ ps.getD j []) :
    (f, fpl.sum + j) ∈ bipEdges fpl ps :=
  List.mem_flatMap.mpr ⟨j, List.mem_range.mpr hj, List.mem_map.mpr ⟨f, hf, rfl⟩⟩

/-- `hasEdge` detects exactly the nodes with an incident edge. -/
theorem hasEdge_iff {es : List (ℕ × ℕ)} {n : ℕ} :
    hasEdge es n = true ↔ ∃ e ∈ es, e.1 = n ∨ e.2 = n := by
  unfold hasEdge
  simp

/-- Pruning keeps the insertion order: surviving firms first, then the
surviving products. -/
theorem prunedNodes_eq_append (fpl : List ℕ) (ps : List (List ℕ)) :
    prunedNodes fpl ps =
      (List.range fpl.sum).filter (hasEdge (bipEdges fpl ps)) ++
        (List.range' fpl.sum ps.length).filter (hasEdge (bipEdges fpl ps)) := by
  unfold prunedNodes bipNodes
  rw [List.range_add, List.filter_append, List.range'_eq_map_range]

/-- No accepted (hence non-empty) product node is ever pruned. -/
theorem filter_range'_of_products (fpl : List ℕ) (ps : List (List ℕ))
    (hlen : ∀ p ∈ ps, 0 < p.length) :
    (List.range' fpl.sum ps.length).filter (hasEdge (bipEdges fpl ps)) =
      List.range' fpl.sum ps.length := by
  rw [List.filter_eq_self]
  intro a ha
  rw [List.mem_range'] at ha
  rcases ha with ⟨j, hj, rfl⟩
  rw [Nat.one_mul]
  have hpj : ps.getD j [] ∈ ps := by
    rw [List.getD_eq_getElem _ _ hj]
    exact List.getElem_mem hj
  rcases List.exists_mem_of_length_pos (hlen _ hpj) with ⟨f, hf⟩
  exact hasEdge_iff.mpr ⟨(f, fpl.sum + j), bipEdges_of_mem hj hf, Or.inr rfl⟩

/-- Position of `s + j` in `range' s n`. -/
theorem indexOf_range' (s n j : ℕ) (h : j < n) :
    List.indexOf (s + j) (List.range' s n) = j := by
  induction n generalizing s j with
  | zero => omega
  | succ m ih =>
    rw [List.range'_succ]
    cases j with
    | zero => simp [List.indexOf_cons_self]
    | succ k =>
      rw [List.indexOf_cons_ne _ (by omega : s ≠ s + (k + 1))]
      rw [show s + (k + 1) = s + 1 + k by omega, ih (s + 1) k (by omega)]

/-- Claim C7: after pruning and relabeling, every edge of the bipartite
generation graph runs from a numerically smaller to a numerically larger new
identifier (surviving firms, created before their products, receive the
smaller consecutive numbers). -/
theorem C7_relabel_ordering (O : Oracle) (fpl : List ℕ) (number_products : ℕ)
    (cv : List ℕ) (radius : ℚ) (h : O.ValidSample) :
    ∀ e ∈ rEdges fpl (product_list O fpl number_products cv radius),
      e.1 < e.2 := by
  intro e he
  set ps := product_list O fpl number_products cv radius with hps
  unfold rEdges at he
  rcases List.mem_map.mp he with ⟨e0, he0, rfl⟩
  rcases mem_bipEdges he0 with ⟨j, hj, he2, he1⟩
  have hlen1 := (product_list_nodup_len O fpl number_products cv radius).2
  have hflt : e0.1 < fpl.sum := by
    have hpj : ps.getD j [] ∈ ps := by
      rw [List.getD_eq_getElem _ _ hj]
      exact List.getElem_mem hj
    exact product_list_mem_lt O fpl number_products cv radius h _ hpj _ he1
  have hfe : hasEdge (bipEdges fpl ps) e0.1 = true :=
    hasEdge_iff.mpr ⟨e0, he0, Or.inl rfl⟩
  have hsplit := prunedNodes_eq_append fpl ps
  rw [filter_range'_of_products fpl ps
    (fun p hp => by have := hlen1 p (hps ▸ hp); omega)] at hsplit
  have hp1 : e0.1 ∈ (List.range fpl.sum).filter (hasEdge (bipEdges fpl ps)) :=
    List.mem_filter.mpr ⟨List.mem_range.mpr hflt, hfe⟩
  have hnot : fpl.sum + j ∉
      (List.range fpl.sum).filter (hasEdge (bipEdges fpl ps)) := by
    intro hmem
    have := List.mem_range.mp (List.mem_filter.mp hmem).1
    omega
  show relabelMap fpl ps e0.1 < relabelMap fpl ps e0.2
  unfold relabelMap
  rw [hsplit, he2, List.indexOf_append_of_mem hp1,
    List.indexOf_append_of_not_mem hnot]
  have hlt := List.indexOf_lt_length.mpr hp1
  omega

/-- Witness for `C7_relabel_ordering`: in the concrete two-label run the
relabeled bipartite edge `(0, 2)` indeed increases. -/
theorem C7_relabel_ordering_witness :
    ((0, 2) : ℕ × ℕ).1 < ((0, 2) : ℕ × ℕ).2 :=
  C7_relabel_ordering oracleZero [1, 1] 1 [1, 1] 1 oracleZero_validSample
    (0, 2) (by with_unfolding_all decide)

/-- The surviving firms are pairwise distinct. -/
theorem survFirms_nodup (fpl : List ℕ) (ps : List (List ℕ)) :
    (survFirms fpl ps).Nodup :=
  (List.nodup_range _).filter _

/-- Membership among the surviving firms. -/
theorem mem_survFirms {fpl : List ℕ} {ps : List (List ℕ)} {x : ℕ} :
    x ∈ survFirms fpl ps ↔
      x < fpl.sum ∧ hasEdge (bipEdges fpl ps) x = true := by
  unfold survFirms
  rw [List.mem_filter, List.mem_range]

/-- With only non-empty products, the pruned node list splits into the
surviving firms followed by all product nodes. -/
theorem prunedNodes_split (fpl : List ℕ) (ps : List (List ℕ))
    (hlen : ∀ p ∈ ps, 0 < p.length) :
    prunedNodes fpl ps = survFirms fpl ps ++ List.range' fpl.sum ps.length := by
  rw [prunedNodes_eq_append, filter_range'_of_products fpl ps hlen]
  rfl

/-- New identifier of a surviving firm: its position among the surviving
firms. -/
theorem relabelMap_firm {fpl : List ℕ} {ps : List (List ℕ)}
    (hlen : ∀ p ∈ ps, 0 < p.length) {f : ℕ} (hf : f ∈ survFirms fpl ps) :
    relabelMap fpl ps f = List.indexOf f (survFirms fpl ps) := by
  unfold relabelMap
  rw [prunedNodes_split fpl ps hlen, List.indexOf_append_of_mem hf]

/-- New identifier of the `j`-th product node: right after all surviving
firms. -/
theorem relabelMap_product {fpl : List ℕ} {ps : List (List ℕ)}
    (hlen : ∀ p ∈ ps, 0 < p.length) {j : ℕ} (hj : j < ps.length) :
    relabelMap fpl ps (fpl.sum + j) = (survFirms fpl ps).length + j := by
  have hnot : fpl.sum + j ∉ survFirms fpl ps := by
    intro hmem
    have := (mem_survFirms.mp hmem).1
    omega
  unfold relabelMap
  rw [prunedNodes_split fpl ps hlen, List.indexOf_append_of_not_mem hnot,
    indexOf_range' _ _ _ hj]

/-- Membership in the relabeled edge list. -/
theorem mem_rEdges_iff {fpl : List ℕ} {ps : List (List ℕ)} {e : ℕ × ℕ} :
    e ∈ rEdges fpl ps ↔ ∃ j < ps.length, ∃ f ∈ ps.getD j [],
      e = (relabelMap fpl ps f, relabelMap fpl ps (fpl.sum + j)) := by
  unfold rEdges
  constructor
  · intro he
    rcases List.mem_map.mp he with ⟨e0, he0, rfl⟩
    rcases mem_bipEdges he0 with ⟨j, hj, he2, he1⟩
    exact ⟨j, hj, e0.1, he1, by rw [he2]⟩
  · rintro ⟨j, hj, f, hf, rfl⟩
    exact List.mem_map.mpr ⟨(f, fpl.sum + j), bipEdges_of_mem hj hf, rfl⟩

/-- Membership in a predecessor list of the relabeled graph. -/
theorem mem_predsOf {fpl : List ℕ} {ps : List (List ℕ)} {i x : ℕ} :
    x ∈ predsOf fpl ps i ↔ ∃ e ∈ rEdges fpl ps, e.2 = i ∧ e.1 = x := by
  unfold predsOf
  constructor
  · intro hx
    rcases List.mem_map.mp hx with ⟨e, he, rfl⟩
    rcases List.mem_filter.mp he with ⟨he, hbe⟩
    exact ⟨e, he, by simpa using hbe, rfl⟩
  · rintro ⟨e, he, h2, rfl⟩
    exact List.mem_map.mpr ⟨e, List.mem_filter.mpr ⟨he, by simpa using h2⟩, rfl⟩

/-- Membership in the output node set: a predecessor of some surviving
product node. -/
theorem mem_node_set {fpl : List ℕ} {ps : List (List ℕ)} {x : ℕ} :
    x ∈ node_set fpl ps ↔
      ∃ i < (prunedNodes fpl ps).length, x ∈ predsOf fpl ps i := by
  unfold node_set productNodes
  rw [List.mem_dedup]
  constructor
  · intro hx
    rcases List.mem_flatMap.mp hx with ⟨i, hi, hxi⟩
    exact ⟨i, List.mem_range.mp (List.mem_filter.mp hi).1, hxi⟩
  · rintro ⟨i, hi, hxi⟩
    refine List.mem_flatMap.mpr ⟨i, List.mem_filter.mpr
      ⟨List.mem_range.mpr hi, ?_⟩, hxi⟩
    simpa using List.length_pos_of_mem hxi

/-- The output node set is exactly the set of new firm identifiers
`0 .. #survivingFirms - 1`. -/
theorem mem_node_set_iff (fpl : List ℕ) (ps : List (List ℕ))
    (hlt : ∀ p ∈ ps, ∀ f ∈ p, f < fpl.sum)
    (hlen : ∀ p ∈ ps, 0 < p.length) {x : ℕ} :
    x ∈ node_set fpl ps ↔ x < (survFirms fpl ps).length := by
  constructor
  · intro hx
    rcases mem_node_set.mp hx with ⟨i, hiM, hxi⟩
    rcases mem_predsOf.mp hxi with ⟨e, he, hei, hex⟩
    rcases mem_rEdges_iff.mp he with ⟨j, hj, f, hf, rfl⟩
    have hpj : ps.getD j [] ∈ ps := by
      rw [List.getD_eq_getElem _ _ hj]
      exact List.getElem_mem hj
    have hfe : f ∈ survFirms fpl ps :=
      mem_survFirms.mpr ⟨hlt _ hpj _ hf, hasEdge_iff.mpr
        ⟨(f, fpl.sum + j), bipEdges_of_mem hj hf, Or.inl rfl⟩⟩
    rw [← hex]
    show relabelMap fpl ps f < _
    rw [relabelMap_firm hlen hfe]
    exact List.indexOf_lt_length.mpr hfe
  · intro hx
    have hf : (survFirms fpl ps)[x] ∈ survFirms fpl ps := List.getElem_mem hx
    rcases mem_survFirms.mp hf with ⟨hfF, hfe⟩
    rcases hasEdge_iff.mp hfe with ⟨e, he, hor⟩
    rcases mem_bipEdges he with ⟨j, hj, he2, he1⟩
    have he1' : (survFirms fpl ps)[x] ∈ ps.getD j [] := by
      rcases hor with hor | hor
      · rw [← hor]
        exact he1
      · rw [he2] at hor
        omega
    refine mem_node_set.mpr ⟨relabelMap fpl ps (fpl.sum + j), ?_, ?_⟩
    · rw [relabelMap_product hlen hj, prunedNodes_split fpl ps hlen]
      simp only [List.length_append, List.length_range']
      omega
    · refine mem_predsOf.mpr ⟨(relabelMap fpl ps ((survFirms fpl ps)[x]),
        relabelMap fpl ps (fpl.sum + j)),
        mem_rEdges_iff.mpr ⟨j, hj, _, he1', rfl⟩, rfl, ?_⟩
      show relabelMap fpl ps ((survFirms fpl ps)[x]) = x
      rw [relabelMap_firm hlen hf]
      exact List.indexOf_getElem (survFirms_nodup fpl ps) x hx

/-- The output node list has exactly one entry per surviving firm. -/
theorem node_set_length (fpl : List ℕ) (ps : List (List ℕ))
    (hlt : ∀ p ∈ ps, ∀ f ∈ p, f < fpl.sum)
    (hlen : ∀ p ∈ ps, 0 < p.length) :
    (node_set fpl ps).length = (survFirms fpl ps).length := by
  have hset : (((List.range (prunedNodes fpl ps).length).filter
      (fun i => 0 < (predsOf fpl ps i).length)).flatMap
        (predsOf fpl ps)).toFinset = Finset.range (survFirms fpl ps).length := by
    ext x
    rw [List.mem_toFinset, Finset.mem_range, ← List.mem_dedup]
    exact mem_node_set_iff fpl ps hlt hlen
  unfold node_set productNodes
  rw [← List.card_toFinset, hset, Finset.card_range]

/-- Claim C10: for every input and valid sampler, the node-identifier set of
each output supply-chain graph is exactly `{0, 1, ..., n-1}` where `n` is its
node count: all firms are inserted before any product node, pruning preserves
insertion order, relabeling numbers the surviving firms first, and the output
node set equals the set of all surviving firms. -/
theorem C10_dense_node_ids (O : Oracle) (fpl : List ℕ) (number_products : ℕ)
    (cv : List ℕ) (radius : ℚ) (h : O.ValidSample) :
    (create_graph O fpl number_products cv radius).nodes.Nodup ∧
    ∀ x, x ∈ (create_graph O fpl number_products cv radius).nodes ↔
      x < (create_graph O fpl number_products cv radius).nodes.length := by
  have hlt := product_list_mem_lt O fpl number_products cv radius h
  have hlen1 := (product_list_nodup_len O fpl number_products cv radius).2
  have hlen : ∀ p ∈ product_list O fpl number_products cv radius,
      0 < p.length := fun p hp => by have := hlen1 p hp; omega
  constructor
  · show (node_set fpl (product_list O fpl number_products cv radius)).Nodup
    exact List.nodup_dedup _
  · intro x
    show x ∈ node_set fpl (product_list O fpl number_products cv radius) ↔
      x < (node_set fpl (product_list O fpl number_products cv radius)).length
    rw [node_set_length fpl _ hlt hlen]
    exact mem_node_set_iff fpl _ hlt hlen

/-- Witness for `C10_dense_node_ids` at a concrete two-label run whose
output nodes are `[0, 1]`. -/
theorem C10_dense_node_ids_witness :
    (create_graph oracleZero [1, 1] 1 [1, 1] 1).nodes.Nodup ∧
    ((0 : ℕ) ∈ (create_graph oracleZero [1, 1] 1 [1, 1] 1).nodes ↔
      0 < (create_graph oracleZero [1, 1] 1 [1, 1] 1).nodes.length) :=
  ⟨(C10_dense_node_ids oracleZero [1, 1] 1 [1, 1] 1 oracleZero_validSample).1,
   (C10_dense_node_ids oracleZero [1, 1] 1 [1, 1] 1 oracleZero_validSample).2 0⟩

end SCN
